import Mathlib

/-!
Verification of the opcode-frequency tools `opcode-freq-all.py` and
`opcode-freq.py`.  The Python sources are embedded shallowly: the external
compiler (`./luau-compile --text`, invoked via `subprocess.run`) is modelled
as a function `String → Option String` returning the decoded stdout on
success (exit code 0) and `none` on failure; per-file opcode extraction,
aggregation, table ranking and JSON output are translated as executable
Lean functions.  Character classes of the Python regexes are modelled for
ASCII text (disassembly output is ASCII; Python's `\w`, `\d`, `\s` also
cover further Unicode characters, which never occur here).
-/

namespace OpcodeFreq

/-- Characters matched by the regex class `[A-Z]`. -/
def isUpperAZ (c : Char) : Bool := 'A' ≤ c && c ≤ 'Z'

/-- Characters matched by the regex class `[0-9]` (ASCII fragment of `\d`). -/
def isDigit09 (c : Char) : Bool := '0' ≤ c && c ≤ '9'

/-- Characters matched by the regex class `[A-Z_0-9]` used in the opcode
pattern of `compile_and_extract` (opcode-freq-all.py line 60,
opcode-freq.py line 35). -/
def isOpChar (c : Char) : Bool := isUpperAZ c || isDigit09 c || c == '_'

/-- Word characters for the regex `\b` word-boundary assertion (ASCII
fragment of Python's `\w`, i.e. `[a-zA-Z0-9_]`). -/
def isWordChar (c : Char) : Bool :=
  isUpperAZ c || ('a' ≤ c && c ≤ 'z') || isDigit09 c || c == '_'

/-- Whitespace for the regex class `\s` (ASCII fragment): space, tab,
newline, carriage return, vertical tab and form feed. -/
def isPySpace (c : Char) : Bool :=
  c == ' ' || c == '\t' || c == '\n' || c == '\r' || c == '\x0b' || c == '\x0c'

/-- Embedding of `label_pattern.sub('', line)` with
`label_pattern = re.compile(r'^L\d+:\s*')` (opcode-freq-all.py lines 53
and 57, opcode-freq.py lines 28 and 32).  The pattern is anchored at the
start of the string, so `re.sub` removes at most one occurrence: a leading
`L`, one or more digits, a colon, and any following whitespace.  A line
not of this shape is returned unchanged. -/
def stripLabel (cs : List Char) : List Char :=
  match cs with
  | 'L' :: rest =>
      if (rest.takeWhile isDigit09).isEmpty then cs
      else
        match rest.dropWhile isDigit09 with
        | ':' :: rest2 => rest2.dropWhile isPySpace
        | _ => cs
  | _ => cs

/-- Word-boundary test of `\b` at position `k` of the line, for the case
(the only one arising in `matchOpcodeL`) where the character at `k - 1` is
a word character: the boundary holds iff the line ends at `k` or the
character at `k` is not a word character. -/
def boundaryAfter (cs : List Char) (k : Nat) : Bool :=
  match cs.drop k with
  | [] => true
  | d :: _ => !isWordChar d

/-- Backtracking of the greedy group `([A-Z][A-Z_0-9]*)` before `\b`: try
the group length `m`, then `m - 1`, and so on down to length 1, returning
the first length at which the word boundary holds. -/
def tryFrom (cs : List Char) : Nat → Option Nat
  | 0 => none
  | k + 1 => if boundaryAfter cs (k + 1) then some (k + 1) else tryFrom cs k

/-- Embedding of `re.match(r'^([A-Z][A-Z_0-9]*)\b', line)` returning the
captured group (opcode-freq-all.py line 60, opcode-freq.py line 35).  The
first character must be in `[A-Z]`; the greedy star extends over
`[A-Z_0-9]`; the match succeeds at the longest (after backtracking, any)
group length followed by a word boundary. -/
def matchOpcodeL (cs : List Char) : Option (List Char) :=
  match cs with
  | [] => none
  | c :: rest =>
      if isUpperAZ c then
        match tryFrom (c :: rest) (1 + (rest.takeWhile isOpChar).length) with
        | some k => some ((c :: rest).take k)
        | none => none
      else none

/-- Processing of one disassembly line in the extraction loop
(opcode-freq-all.py lines 56-62, opcode-freq.py lines 31-37): strip a
leading label, skip the line if the remainder is empty, otherwise attempt
the opcode match; `some op` means the count of `op` is incremented. -/
def extractLine (cs : List Char) : Option (List Char) :=
  let s := stripLabel cs
  if s.isEmpty then none else matchOpcodeL s

/-- Opcode occurrences extracted from a list of disassembly lines, in line
order.  The per-file `Counter` of the Python code is recovered from this
token list by `counterItems`. -/
def extractLines (lines : List String) : List String :=
  lines.filterMap (fun l => (extractLine l.toList).map (fun cs => String.mk cs))

/-- Splitting a character list at every newline; like Python's
`"...".split("\n")`, the result has one (possibly empty) piece more than
there are newlines. -/
def splitOnNL : List Char → List (List Char)
  | [] => [[]]
  | '\n' :: rest => [] :: splitOnNL rest
  | c :: rest =>
      match splitOnNL rest with
      | [] => [[c]]
      | l :: ls => (c :: l) :: ls

/-- Embedding of `str.splitlines()` for LF-separated text (the compiler
output contains no other line terminators): split on newline, with no
empty final line when the text ends in a newline and no line at all for
the empty text. -/
def splitLines (s : String) : List String :=
  if s = "" then []
  else
    let parts := (splitOnNL s.toList).map (fun cs => String.mk cs)
    if parts.getLast? = some "" then parts.dropLast else parts

/-- Opcode occurrences extracted from one file's disassembly text
(`compile_and_extract` success path, opcode-freq-all.py lines 52-64). -/
def extractOpcodes (text : String) : List String :=
  extractLines (splitLines text)

/-- Keys of a Python `Counter` built from a token list, in insertion
order, i.e. in order of first occurrence. -/
def firstKeys : List String → List String
  | [] => []
  | t :: ts => t :: (firstKeys ts).filter (fun k => k != t)

/-- Items of the Python `Counter` of a token list: each distinct token in
first-occurrence order, paired with its number of occurrences. -/
def counterItems (tokens : List String) : List (String × Nat) :=
  (firstKeys tokens).map (fun k => (k, tokens.count k))

/-- Lookup in a counter/dict represented as an association list, with the
Python convention `d.get(k, 0)`: absent keys count 0. -/
def lookup0 (m : List (String × Nat)) (k : String) : Nat :=
  match m.find? (fun e => e.1 == k) with
  | some e => e.2
  | none => 0

/-- Lexicographic comparison of character lists by code point, the
comparison Python uses on `str`. -/
def charListLE : List Char → List Char → Bool
  | [], _ => true
  | _ :: _, [] => false
  | a :: as, b :: bs =>
      if a < b then true
      else if b < a then false
      else charListLE as bs

/-- String comparison by code points, as in Python. -/
def strLE (a b : String) : Bool := charListLE a.toList b.toList

/-- Ordering used by `sorted(counter.items(), key=lambda x: (-x[1], x[0]))`
(opcode-freq-all.py line 74, opcode-freq.py line 47): larger counts first,
ties by ascending opcode name. -/
def rankLE (a b : String × Nat) : Bool :=
  if b.2 < a.2 then true
  else if a.2 = b.2 then strLE a.1 b.1
  else false

/-- Insertion step of the sort: place `x` before the first element it
ranks before-or-equal to. -/
def insertRanked (x : String × Nat) :
    List (String × Nat) → List (String × Nat)
  | [] => [x]
  | y :: ys => if rankLE x y then x :: y :: ys else y :: insertRanked x ys

/-- Embedding of the `sorted(...)` call producing `sorted_items`: a stable
sort by descending count with ascending-name tie-break.  On counter items
the keys are distinct, so any sort agreeing with this ordering (Python's
timsort included) produces this exact sequence. -/
def rankSort (l : List (String × Nat)) : List (String × Nat) :=
  l.foldr insertRanked []

/-- Percentage of one table row (opcode-freq-all.py line 77, opcode-freq.py
line 50): `(count / total * 100) if total > 0 else 0.0`, as an exact
rational. -/
def pctOf (count total : Nat) : ℚ :=
  if 0 < total then (count : ℚ) / (total : ℚ) * 100 else 0

/-- Rows of `print_frequency_table` in print order: ranked items, each with
its count and percentage (opcode-freq-all.py lines 74-78). -/
def tableRows (items : List (String × Nat)) (total : Nat) :
    List (String × Nat × ℚ) :=
  (rankSort items).map (fun e => (e.1, e.2, pctOf e.2 total))

/-- Structured output record of `print_json_output`
(opcode-freq-all.py lines 87-92). -/
structure JsonOut where
  file_count : Nat
  aggregate : List (String × Nat)
  total_opcodes : Nat
  per_file : List (String × List (String × Nat))
deriving Repr, DecidableEq

/-- Embedding of `print_json_output(aggregate, per_file, file_count)`:
`total_opcodes` is computed as `sum(aggregate.values())`. -/
def print_json_output (aggregate : List (String × Nat))
    (per_file : List (String × List (String × Nat))) (file_count : Nat) :
    JsonOut :=
  { file_count := file_count
    aggregate := aggregate
    total_opcodes := (aggregate.map (fun e => e.2)).sum
    per_file := per_file }

/-- Accumulator state of the per-file loop in `main` of opcode-freq-all.py
(lines 123-142).  Counters are carried as token lists (the induced counts
are the Python `Counter` values); `invocations` records one entry per
`subprocess.run` call, in order. -/
structure RunState where
  fileCount : Nat
  failed : Nat
  aggregate : List String
  perFile : List (String × List String)
  asmParts : List String
  invocations : List String
deriving Repr, DecidableEq

/-- Initial accumulator state (opcode-freq-all.py lines 123-127). -/
def initState : RunState :=
  { fileCount := 0, failed := 0, aggregate := [], perFile := []
    asmParts := [], invocations := [] }

/-- Python dict assignment `m[k] = v`: replace the value in place if the
key is present, else append the new entry. -/
def dictInsert {α : Type} (m : List (String × α)) (k : String) (v : α) :
    List (String × α) :=
  if m.any (fun e => e.1 == k) then
    m.map (fun e => if e.1 == k then (k, v) else e)
  else m ++ [(k, v)]

/-- Delimiter line written before each file's disassembly in show-asm mode
(opcode-freq-all.py line 135). -/
def headerOf (f : String) : String := "=== " ++ f ++ " ===\n"

/-- One iteration of the loop `for filepath in files:` of
opcode-freq-all.py (lines 129-142).  `compile_and_extract` performs one
compiler invocation; on success the file counter is incremented, the
per-file counts are merged into the aggregate and stored in `per_file`,
and a second invocation fetches the disassembly text for
`assembly_parts`; on failure only the failed counter is incremented. -/
def step (compiler : String → Option String) (s : RunState) (f : String) :
    RunState :=
  match compiler f with
  | some text =>
      { fileCount := s.fileCount + 1
        failed := s.failed
        aggregate := s.aggregate ++ extractOpcodes text
        perFile := dictInsert s.perFile f (extractOpcodes text)
        asmParts := s.asmParts ++ [headerOf f, text]
        invocations := s.invocations ++ [f, f] }
  | none =>
      { s with
        failed := s.failed + 1
        invocations := s.invocations ++ [f] }

/-- The whole per-file loop of `main` (opcode-freq-all.py lines 129-142),
run over the file list supplied by `find_files` (which returns a sorted,
duplicate-free list: `sorted(files)` of a `set`). -/
def runAll (compiler : String → Option String) (files : List String) :
    RunState :=
  files.foldl (step compiler) initState

/-- Structured output of a finished run, as printed by
`print_json_output(dict(aggregate_counter), per_file, file_count)`
(opcode-freq-all.py line 149). -/
def jsonOf (r : RunState) : JsonOut :=
  print_json_output (counterItems r.aggregate)
    (r.perFile.map (fun e => (e.1, counterItems e.2))) r.fileCount

/-- Output modes of opcode-freq-all.py: default table, `--show-asm`, and
`--json`. -/
inductive OutMode where
  | table
  | showAsm
  | json
deriving Repr, DecidableEq

/-- Rendered primary output of a run (opcode-freq-all.py lines 148-157). -/
inductive Report where
  | table (fileCount : Nat) (rows : List (String × Nat × ℚ)) (total : Nat)
  | withAsm (asm : List String) (fileCount : Nat)
      (rows : List (String × Nat × ℚ)) (total : Nat)
  | jsonOut (o : JsonOut)
deriving Repr, DecidableEq

/-- Rendering step of `main` once the loop has finished: the total passed
to `print_frequency_table` is `sum(aggregate_counter.values())`
(opcode-freq-all.py lines 148-157). -/
def renderReport (mode : OutMode) (r : RunState) : Report :=
  let items := counterItems r.aggregate
  let total := (items.map (fun e => e.2)).sum
  match mode with
  | OutMode.json => Report.jsonOut (jsonOf r)
  | OutMode.showAsm => Report.withAsm r.asmParts r.fileCount (tableRows items total) total
  | OutMode.table => Report.table r.fileCount (tableRows items total) total

/-- Observable outcome of one run of opcode-freq-all.py: process exit
code, the primary output (none when the run aborts before rendering), the
stderr warning carrying the failed-file count (none when no warning is
printed), and the sequence of compiler invocations. -/
structure MainOutcome where
  exitCode : Nat
  report : Option Report
  warning : Option Nat
  invocations : List String
deriving Repr, DecidableEq

/-- Embedding of `main` of opcode-freq-all.py after argument parsing and
file discovery (lines 119-160): empty file list exits 1 (line 121); zero
successfully compiled files print an explicit message and exit 1 before
any report or warning (lines 144-146, `sys.exit` aborts); otherwise the
report for the selected mode is rendered, the warning with the
failed-file count is printed to stderr iff some file failed (lines
159-160), and the exit code is 0. -/
def mainRun (mode : OutMode) (compiler : String → Option String)
    (files : List String) : MainOutcome :=
  if files.isEmpty then
    { exitCode := 1, report := none, warning := none, invocations := [] }
  else
    let r := runAll compiler files
    if r.fileCount = 0 then
      { exitCode := 1, report := none, warning := none
        invocations := r.invocations }
    else
      { exitCode := 0
        report := some (renderReport mode r)
        warning := if 0 < r.failed then some r.failed else none
        invocations := r.invocations }

/-- Embedding of the option handling of `main` in opcode-freq-all.py
(lines 100-106, 116): the input is `sys.argv[1:]`, the output is
`(show_asm, output_json, patterns)`.  Only the first argument is compared
against `--show-asm` and (elif) `--json`; a recognised flag is popped and
everything after it becomes the pattern list. -/
def parseArgs (args : List String) : Bool × Bool × List String :=
  match args with
  | [] => (false, false, [])
  | a :: rest =>
      if a = "--show-asm" then (true, false, rest)
      else if a = "--json" then (false, true, rest)
      else (false, false, a :: rest)

/-- Embedding of `compile_and_extract` of the single-file tool
opcode-freq.py (lines 16-39): on compiler failure it returns the empty
text and an empty counter; on success the text and the extracted
occurrences. -/
def singleExtract (compiler : String → Option String) (filepath : String) :
    String × List String :=
  match compiler filepath with
  | none => ("", [])
  | some text => (text, extractOpcodes text)

/-- Exit code of `main` of opcode-freq.py after the extraction (lines
71-75): `if not opcode_counts:` print a message and exit 1; otherwise the
table is printed and the process exits 0. -/
def singleExitCode (compiler : String → Option String) (filepath : String) :
    Nat :=
  if (singleExtract compiler filepath).2 = [] then 1 else 0

/-- Token shape of a label prefix as the spec defines it: the letter `L`,
one or more digits, then a colon. -/
def digitsThenColon : List Char → Bool
  | [] => false
  | [c] => c == ':'
  | c :: rest => isDigit09 c && digitsThenColon rest

/-- Decides whether a token has the label-prefix shape `L`, one or more
digits, `:`. -/
def isLabelToken (cs : List Char) : Bool :=
  match cs with
  | c :: d :: rest => c == 'L' && isDigit09 d && digitsThenColon (d :: rest)
  | _ => false

/-- Opcode occurrences one file contributes to the run: the extraction of
its disassembly on success, nothing on failure. -/
def extractOf (compiler : String → Option String) (f : String) :
    List String :=
  match compiler f with
  | some text => extractOpcodes text
  | none => []

/-- Compiler invocations one file causes inside the loop of
opcode-freq-all.py: one in `compile_and_extract` (line 44), and on
success a second one for `assembly_parts` (line 136). -/
def invOf (compiler : String → Option String) (f : String) : List String :=
  match compiler f with
  | some _ => [f, f]
  | none => [f]

/-- Sample collaborator: succeeds on every path with a fixed two-opcode
disassembly, except that it fails on `bad.luau`. -/
def mixedCompiler : String → Option String :=
  fun f => if f = "bad.luau" then none else some "MOVE R0 R1\nRETURN R0 1"

/-- Sample collaborator that succeeds with empty output on every path. -/
def emptyOkCompiler : String → Option String := fun _ => some ""

/-- Sample collaborator that fails on every path. -/
def failCompiler : String → Option String := fun _ => none

/-- Sample collaborator that succeeds on every path with a one-opcode
disassembly. -/
def okCompiler : String → Option String := fun _ => some "LOADK R0 K0"

/-- The three-line disassembly text of the scenario in the spec (section
8), whose middle line is indented with leading spaces. -/
def scenarioText : String :=
  "L0: LOADK R0 K0\n    ADD R1 R0 R0\nL1: RETURN R1 1"

section Lemmas

/-- Characters captured by the opcode group are word characters. -/
theorem isWordChar_of_isOpChar {c : Char} (h : isOpChar c = true) :
    isWordChar c = true := by
  simp only [isOpChar, isWordChar, Bool.or_eq_true, beq_iff_eq] at h ⊢
  tauto

/-- Unfolding of the loop state after processing one more file. -/
theorem foldl_step_cons (compiler : String → Option String) (s : RunState)
    (f : String) (fs : List String) :
    (f :: fs).foldl (step compiler) s = fs.foldl (step compiler) (step compiler s f) := rfl

/-- The succeeded-file counter counts exactly the files whose invocation
succeeded. -/
theorem foldl_step_fileCount (compiler : String → Option String) :
    ∀ (files : List String) (s : RunState),
      (files.foldl (step compiler) s).fileCount
        = s.fileCount + files.countP (fun f => (compiler f).isSome) := by
  intro files
  induction files with
  | nil => intro s; simp
  | cons f fs ih =>
      intro s
      rw [foldl_step_cons, ih, List.countP_cons]
      cases hc : compiler f <;> simp [step, hc] <;> omega

/-- The failed-file counter counts exactly the files whose invocation
failed. -/
theorem foldl_step_failed (compiler : String → Option String) :
    ∀ (files : List String) (s : RunState),
      (files.foldl (step compiler) s).failed
        = s.failed + files.countP (fun f => (compiler f).isNone) := by
  intro files
  induction files with
  | nil => intro s; simp
  | cons f fs ih =>
      intro s
      rw [foldl_step_cons, ih, List.countP_cons]
      cases hc : compiler f <;> simp [step, hc] <;> omega

/-- The invocation log is the per-file invocation lists concatenated in
file order. -/
theorem foldl_step_invocations (compiler : String → Option String) :
    ∀ (files : List String) (s : RunState),
      (files.foldl (step compiler) s).invocations
        = s.invocations ++ files.flatMap (invOf compiler) := by
  intro files
  induction files with
  | nil => intro s; simp
  | cons f fs ih =>
      intro s
      rw [foldl_step_cons, ih]
      cases hc : compiler f <;>
        simp [step, hc, invOf, List.flatMap_cons, List.append_assoc]

/-- The aggregate token list is the concatenation of the extractions of
the succeeded files, in file order. -/
theorem foldl_step_aggregate (compiler : String → Option String) :
    ∀ (files : List String) (s : RunState),
      (files.foldl (step compiler) s).aggregate
        = s.aggregate
          ++ ((files.filter (fun f => (compiler f).isSome)).map
                (extractOf compiler)).flatten := by
  intro files
  induction files with
  | nil => intro s; simp
  | cons f fs ih =>
      intro s
      rw [foldl_step_cons, ih]
      cases hc : compiler f <;>
        simp [step, hc, extractOf, List.filter_cons, List.append_assoc]

/-- Dict assignment with a key absent from the dict appends the entry. -/
theorem dictInsert_fresh {α : Type} (m : List (String × α)) (k : String)
    (v : α) (h : ∀ e ∈ m, (e.1 == k) = false) :
    dictInsert m k v = m ++ [(k, v)] := by
  have hany : m.any (fun e => e.1 == k) = false := by
    simp only [List.any_eq_false]
    intro e he
    simp [h e he]
  simp [dictInsert, hany]

/-- The per-file dict collects, in file order, one entry per succeeded
file, holding that file's extraction; this requires that the processed
files are distinct and none of them already occurs in the dict, which
`find_files` guarantees. -/
theorem foldl_step_perFile (compiler : String → Option String) :
    ∀ (files : List String) (s : RunState),
      (∀ f ∈ files, ∀ e ∈ s.perFile, (e.1 == f) = false) →
      files.Nodup →
      (files.foldl (step compiler) s).perFile
        = s.perFile
          ++ (files.filter (fun f => (compiler f).isSome)).map
              (fun f => (f, extractOf compiler f)) := by
  intro files
  induction files with
  | nil => intro s _ _; simp
  | cons f fs ih =>
      intro s hfresh hnd
      have hndf : f ∉ fs := (List.nodup_cons.mp hnd).1
      have hndfs : fs.Nodup := (List.nodup_cons.mp hnd).2
      rw [foldl_step_cons]
      cases hc : compiler f with
      | some text =>
          have hext : extractOf compiler f = extractOpcodes text := by
            simp [extractOf, hc]
          have hstep : (step compiler s f).perFile
              = s.perFile ++ [(f, extractOf compiler f)] := by
            simp only [step, hc, hext]
            exact dictInsert_fresh s.perFile f (extractOpcodes text)
              (hfresh f (List.mem_cons_self f fs))
          have hfresh2 : ∀ g ∈ fs, ∀ e ∈ (step compiler s f).perFile,
              (e.1 == g) = false := by
            intro g hg e he
            rw [hstep] at he
            rcases List.mem_append.mp he with h1 | h1
            · exact hfresh g (List.mem_cons_of_mem f hg) e h1
            · have : e = (f, extractOf compiler f) := by simpa using h1
              subst this
              simp only [beq_eq_false_iff_ne, ne_eq]
              intro hfg
              exact hndf (hfg ▸ hg)
          rw [ih (step compiler s f) hfresh2 hndfs, hstep,
            List.filter_cons_of_pos (by simp [hc]), List.map_cons,
            List.append_assoc]
          rfl
      | none =>
          have hstep : (step compiler s f).perFile = s.perFile := by
            simp [step, hc]
          have hfresh2 : ∀ g ∈ fs, ∀ e ∈ (step compiler s f).perFile,
              (e.1 == g) = false := by
            intro g hg e he
            rw [hstep] at he
            exact hfresh g (List.mem_cons_of_mem f hg) e he
          rw [ih (step compiler s f) hfresh2 hndfs, hstep,
            List.filter_cons_of_neg (by simp [hc])]

/-- Membership in the insertion-ordered key list coincides with
membership in the token list. -/
theorem mem_firstKeys {k : String} :
    ∀ {l : List String}, k ∈ firstKeys l ↔ k ∈ l := by
  intro l
  induction l with
  | nil => simp [firstKeys]
  | cons t ts ih =>
      simp only [firstKeys, List.mem_cons, List.mem_filter, ih, bne_iff_ne,
        ne_eq]
      by_cases hk : k = t
      · simp [hk]
      · simp [hk]

/-- Looking a key up among mapped counter entries returns its count when
the key occurs. -/
theorem find?_counter_entries (l : List String) (k : String) :
    ∀ (keys : List String), k ∈ keys →
      (keys.map (fun x => (x, l.count x))).find? (fun e => e.1 == k)
        = some (k, l.count k) := by
  intro keys
  induction keys with
  | nil => intro h; simp at h
  | cons x xs ih =>
      intro hk
      by_cases hx : x = k
      · subst hx
        simp [List.find?]
      · have hk2 : k ∈ xs := by
          rcases List.mem_cons.mp hk with h | h
          · exact absurd h.symm hx
          · exact h
        have hbeq : (x == k) = false := by simp [hx]
        simp only [List.map_cons, List.find?, hbeq]
        exact ih hk2

/-- The counter built from a token list answers lookups with the token
count, absent keys included. -/
theorem lookup0_counterItems (l : List String) (k : String) :
    lookup0 (counterItems l) k = l.count k := by
  by_cases hk : k ∈ l
  · have hk1 : k ∈ firstKeys l := mem_firstKeys.mpr hk
    simp only [lookup0, counterItems, find?_counter_entries l k _ hk1]
  · have hk1 : k ∉ firstKeys l := fun h => hk (mem_firstKeys.mp h)
    have hfind :
        ((firstKeys l).map (fun x => (x, l.count x))).find?
          (fun e => e.1 == k) = none := by
      rw [List.find?_eq_none]
      intro e he
      rcases List.mem_map.mp he with ⟨x, hx, rfl⟩
      simp only [beq_eq_false_iff_ne, ne_eq, Bool.not_eq_true]
      intro hxk
      exact hk1 (hxk ▸ hx)
    simp only [lookup0, counterItems, hfind]
    exact (List.count_eq_zero.mpr hk).symm

/-- Totality of the code-point comparison. -/
theorem charListLE_total :
    ∀ a b : List Char, charListLE a b = true ∨ charListLE b a = true := by
  intro a
  induction a with
  | nil => intro b; left; rfl
  | cons x xs ih =>
      intro b
      cases b with
      | nil => right; rfl
      | cons y ys =>
          rcases lt_trichotomy x y with h | h | h
          · left; simp [charListLE, h]
          · subst h
            rcases ih ys with h3 | h3
            · left; simp [charListLE, h3]
            · right; simp [charListLE, h3]
          · right; simp [charListLE, h]

/-- Transitivity of the code-point comparison. -/
theorem charListLE_trans :
    ∀ a b c : List Char, charListLE a b = true → charListLE b c = true →
      charListLE a c = true := by
  intro a
  induction a with
  | nil => intro b c _ _; rfl
  | cons x xs ih =>
      intro b c hab hbc
      cases b with
      | nil => simp [charListLE] at hab
      | cons y ys =>
          cases c with
          | nil => simp [charListLE] at hbc
          | cons z zs =>
              simp only [charListLE] at hab hbc ⊢
              by_cases hxy : x < y
              · by_cases hyz : y < z
                · simp [hxy.trans hyz]
                · by_cases hzy : z < y
                  · simp [if_neg hyz, if_pos hzy] at hbc
                  · have hyzeq : y = z := le_antisymm (not_lt.mp hzy) (not_lt.mp hyz)
                    simp [show x < z from hyzeq ▸ hxy]
              · by_cases hyx : y < x
                · simp [if_neg hxy, if_pos hyx] at hab
                · have hxyeq : x = y := le_antisymm (not_lt.mp hyx) (not_lt.mp hxy)
                  simp only [if_neg hxy, if_neg hyx] at hab
                  subst hxyeq
                  by_cases hyz : x < z
                  · simp [hyz]
                  · by_cases hzy : z < x
                    · simp [if_neg hyz, if_pos hzy] at hbc
                    · simp only [if_neg hyz, if_neg hzy] at hbc ⊢
                      exact ih ys zs hab hbc

/-- Antisymmetry of the code-point comparison. -/
theorem charListLE_antisymm :
    ∀ a b : List Char, charListLE a b = true → charListLE b a = true →
      a = b := by
  intro a
  induction a with
  | nil =>
      intro b _ hba
      cases b with
      | nil => rfl
      | cons y ys => simp [charListLE] at hba
  | cons x xs ih =>
      intro b hab hba
      cases b with
      | nil => simp [charListLE] at hab
      | cons y ys =>
          simp only [charListLE] at hab hba
          by_cases hxy : x < y
          · have : ¬y < x := lt_asymm hxy
            simp [if_neg this, if_pos hxy] at hba
          · by_cases hyx : y < x
            · simp [if_neg hxy, if_pos hyx] at hab
            · have hxyeq : x = y := le_antisymm (not_lt.mp hyx) (not_lt.mp hxy)
              simp only [if_neg hxy, if_neg hyx] at hab hba
              rw [hxyeq, ih ys hab hba]

/-- Totality of the Python string comparison. -/
theorem strLE_total (a b : String) : strLE a b = true ∨ strLE b a = true :=
  charListLE_total a.toList b.toList

/-- Transitivity of the Python string comparison. -/
theorem strLE_trans {a b c : String} (h1 : strLE a b = true)
    (h2 : strLE b c = true) : strLE a c = true :=
  charListLE_trans a.toList b.toList c.toList h1 h2

/-- Antisymmetry of the Python string comparison. -/
theorem strLE_antisymm {a b : String} (h1 : strLE a b = true)
    (h2 : strLE b a = true) : a = b := by
  have h := charListLE_antisymm a.toList b.toList h1 h2
  exact String.ext (by simpa [String.toList] using h)

/-- Totality of the ranking order. -/
theorem rankLE_total (a b : String × Nat) :
    rankLE a b = true ∨ rankLE b a = true := by
  unfold rankLE
  rcases lt_trichotomy a.2 b.2 with h | h | h
  · right; simp [h]
  · rcases strLE_total a.1 b.1 with h1 | h1
    · left; simp [h, h1]
    · right; simp [h, h1]
  · left; simp [h]

/-- Transitivity of the ranking order. -/
theorem rankLE_trans {a b c : String × Nat} (h1 : rankLE a b = true)
    (h2 : rankLE b c = true) : rankLE a c = true := by
  unfold rankLE at h1 h2 ⊢
  by_cases hba : b.2 < a.2
  · by_cases hcb : c.2 < b.2
    · simp [hcb.trans hba]
    · by_cases hbc : b.2 = c.2
      · simp [show c.2 < a.2 from hbc ▸ hba]
      · simp [if_neg hcb, if_neg hbc] at h2
  · by_cases hab : a.2 = b.2
    · by_cases hcb : c.2 < b.2
      · simp [show c.2 < a.2 from hab ▸ hcb]
      · by_cases hbc : b.2 = c.2
        · simp only [if_pos hab, if_neg hba] at h1
          simp only [if_pos hbc, if_neg hcb] at h2
          have : ¬c.2 < a.2 := by omega
          simp [this, hab.trans hbc, strLE_trans h1 h2]
        · simp [if_neg hcb, if_neg hbc] at h2
    · simp [if_neg hba, if_neg hab] at h1

/-- Antisymmetry of the ranking order. -/
theorem rankLE_antisymm {a b : String × Nat} (h1 : rankLE a b = true)
    (h2 : rankLE b a = true) : a = b := by
  unfold rankLE at h1 h2
  by_cases hba : b.2 < a.2
  · have : ¬a.2 < b.2 := by omega
    have : ¬b.2 = a.2 := by omega
    simp [if_neg (show ¬a.2 < b.2 by omega), if_neg this] at h2
  · by_cases hab : a.2 = b.2
    · simp only [if_pos hab, if_neg hba] at h1
      simp only [if_pos hab.symm, if_neg (show ¬a.2 < b.2 by omega)] at h2
      have hname : a.1 = b.1 := strLE_antisymm h1 h2
      exact Prod.ext hname hab
    · simp [if_neg hba, if_neg hab] at h1

/-- Inserting an element permutes consing it. -/
theorem insertRanked_perm (x : String × Nat) :
    ∀ l : List (String × Nat), (insertRanked x l).Perm (x :: l) := by
  intro l
  induction l with
  | nil => exact List.Perm.refl _
  | cons y ys ih =>
      by_cases h : rankLE x y = true
      · simp [insertRanked, h]
      · simp only [insertRanked, if_neg h]
        exact (ih.cons y).trans (List.Perm.swap x y ys)

/-- The ranking sort permutes its input. -/
theorem rankSort_perm (l : List (String × Nat)) : (rankSort l).Perm l := by
  induction l with
  | nil => exact List.Perm.refl _
  | cons x xs ih =>
      have : rankSort (x :: xs) = insertRanked x (rankSort xs) := rfl
      rw [this]
      exact (insertRanked_perm x (rankSort xs)).trans (ih.cons x)

/-- Insertion preserves sortedness with respect to the ranking order. -/
theorem sorted_insertRanked (x : String × Nat) :
    ∀ l : List (String × Nat),
      l.Pairwise (fun a b => rankLE a b = true) →
      (insertRanked x l).Pairwise (fun a b => rankLE a b = true) := by
  intro l
  induction l with
  | nil => intro _; simp [insertRanked]
  | cons y ys ih =>
      intro hs
      rcases List.pairwise_cons.mp hs with ⟨hy, hys⟩
      by_cases h : rankLE x y = true
      · simp only [insertRanked, if_pos h]
        refine List.pairwise_cons.mpr ⟨?_, hs⟩
        intro z hz
        rcases List.mem_cons.mp hz with rfl | hz
        · exact h
        · exact rankLE_trans h (hy z hz)
      · have hyx : rankLE y x = true := (rankLE_total x y).resolve_left h
        simp only [insertRanked, if_neg h]
        refine List.pairwise_cons.mpr ⟨?_, ih hys⟩
        intro z hz
        have hz2 : z ∈ x :: ys := (insertRanked_perm x ys).mem_iff.mp hz
        rcases List.mem_cons.mp hz2 with rfl | hz2
        · exact hyx
        · exact hy z hz2

/-- The ranking sort produces a sequence sorted by descending count with
ascending-name tie-break. -/
theorem sorted_rankSort (l : List (String × Nat)) :
    (rankSort l).Pairwise (fun a b => rankLE a b = true) := by
  induction l with
  | nil => simp [rankSort]
  | cons x xs ih => exact sorted_insertRanked x (rankSort xs) ih

/-- Shifting the word-boundary test past a leading character. -/
theorem boundaryAfter_cons (a : Char) (l : List Char) (k : Nat) :
    boundaryAfter (a :: l) (k + 1) = boundaryAfter l k := by
  simp [boundaryAfter]

/-- Inside the maximal group, every candidate boundary position has a word
character on its right, so the boundary test fails there. -/
theorem boundaryAfter_inside (qs : List Char) :
    ∀ (ps : List Char) (c : Char) (j : Nat), j < ps.length →
      (∀ x ∈ ps, isOpChar x = true) →
      boundaryAfter (c :: (ps ++ qs)) (j + 1) = false := by
  intro ps
  induction ps with
  | nil => intro c j hj _; simp at hj
  | cons p ps' ih =>
      intro c j hj hop
      cases j with
      | zero =>
          simp only [boundaryAfter, List.cons_append, List.drop_succ_cons,
            List.drop_zero]
          simp [isWordChar_of_isOpChar (hop p (List.mem_cons_self p ps'))]
      | succ j' =>
          rw [boundaryAfter_cons, List.cons_append]
          exact ih p j' (by simpa using hj)
            (fun x hx => hop x (List.mem_cons_of_mem p hx))

/-- A successful backtracking search returns a group length between 1 and
its starting length. -/
theorem tryFrom_le (cs : List Char) :
    ∀ m k, tryFrom cs m = some k → 1 ≤ k ∧ k ≤ m := by
  intro m
  induction m with
  | zero => intro k h; simp [tryFrom] at h
  | succ m' ih =>
      intro k h
      simp only [tryFrom] at h
      by_cases hb : boundaryAfter cs (m' + 1) = true
      · rw [if_pos hb] at h
        cases h
        omega
      · rw [if_neg hb] at h
        have := ih k h
        omega

/-- Backtracking fails entirely while the candidate group end stays inside
the maximal group. -/
theorem tryFrom_inside_none (c : Char) (ps qs : List Char)
    (hop : ∀ x ∈ ps, isOpChar x = true) :
    ∀ m, m ≤ ps.length → tryFrom (c :: (ps ++ qs)) m = none := by
  intro m
  induction m with
  | zero => intro _; rfl
  | succ m' ih =>
      intro hm
      have hb : boundaryAfter (c :: (ps ++ qs)) (m' + 1) = false :=
        boundaryAfter_inside qs ps c m' (by omega) hop
      simp only [tryFrom, hb, if_false, Bool.false_eq_true]
      exact ih (by omega)

/-- Every character of the maximal group is in the group class. -/
theorem takeWhile_isOpChar (rest : List Char) :
    ∀ x ∈ rest.takeWhile isOpChar, isOpChar x = true :=
  fun _ hx => List.mem_takeWhile_imp hx

/-- Taking as many characters as the matched group reproduces the group. -/
theorem take_length_takeWhile (p : Char → Bool) :
    ∀ l : List Char, l.take (l.takeWhile p).length = l.takeWhile p := by
  intro l
  induction l with
  | nil => rfl
  | cons a l ih =>
      by_cases h : p a = true <;>
        simp [List.takeWhile_cons, h, ih]

/-- Dropping the matched group leaves the unmatched remainder. -/
theorem drop_length_takeWhile (p : Char → Bool) :
    ∀ l : List Char, l.drop (l.takeWhile p).length = l.dropWhile p := by
  intro l
  induction l with
  | nil => rfl
  | cons a l ih =>
      by_cases h : p a = true <;>
        simp [List.takeWhile_cons, List.dropWhile_cons, h, ih]

/-- The opcode match succeeds with the maximal group when the boundary
after the maximal group holds. -/
theorem matchOpcodeL_boundary_true (c : Char) (rest : List Char)
    (hc : isUpperAZ c = true)
    (hb : boundaryAfter (c :: rest)
        ((rest.takeWhile isOpChar).length + 1) = true) :
    matchOpcodeL (c :: rest) = some (c :: rest.takeWhile isOpChar) := by
  have htake : (c :: rest).take ((rest.takeWhile isOpChar).length + 1)
      = c :: rest.takeWhile isOpChar := by
    rw [List.take_succ_cons, take_length_takeWhile]
  simp only [matchOpcodeL, hc, if_true, Nat.add_comm 1, tryFrom, hb,
    if_true, htake]

/-- The opcode match fails when a word character follows the maximal
group. -/
theorem matchOpcodeL_boundary_false (c : Char) (rest : List Char)
    (hc : isUpperAZ c = true)
    (hb : boundaryAfter (c :: rest)
        ((rest.takeWhile isOpChar).length + 1) = false) :
    matchOpcodeL (c :: rest) = none := by
  have hsplit : rest.takeWhile isOpChar ++ rest.dropWhile isOpChar = rest :=
    List.takeWhile_append_dropWhile isOpChar rest
  have hnone : tryFrom (c :: rest) ((rest.takeWhile isOpChar).length) = none := by
    conv in c :: rest => rw [← hsplit]
    exact tryFrom_inside_none c _ _ (takeWhile_isOpChar rest) _ (le_refl _)
  simp only [matchOpcodeL, hc, if_true, Nat.add_comm 1, tryFrom, hb,
    Bool.false_eq_true, if_false, hnone]

/-- The word-boundary test after the maximal group inspects exactly the
first unmatched character. -/
theorem boundaryAfter_at_group_end (c : Char) (rest : List Char) :
    boundaryAfter (c :: rest) ((rest.takeWhile isOpChar).length + 1)
      = match rest.dropWhile isOpChar with
        | [] => true
        | d :: _ => !isWordChar d := by
  rw [boundaryAfter_cons, boundaryAfter, drop_length_takeWhile]

/-- Tokens of the shape digits-then-colon contain a colon. -/
theorem colon_mem_digitsThenColon :
    ∀ l : List Char, digitsThenColon l = true → ':' ∈ l := by
  intro l
  induction l with
  | nil => intro h; simp [digitsThenColon] at h
  | cons c rest ih =>
      intro h
      cases rest with
      | nil =>
          simp only [digitsThenColon, beq_iff_eq] at h
          simp [h]
      | cons c2 rest2 =>
          simp only [digitsThenColon, Bool.and_eq_true] at h
          exact List.mem_cons_of_mem c (ih h.2)

/-- Label-shaped tokens contain a colon. -/
theorem colon_mem_isLabelToken (cs : List Char) (h : isLabelToken cs = true) :
    ':' ∈ cs := by
  cases cs with
  | nil => simp [isLabelToken] at h
  | cons c rest =>
      cases rest with
      | nil => simp [isLabelToken] at h
      | cons d rest2 =>
          simp only [isLabelToken, Bool.and_eq_true] at h
          exact List.mem_cons_of_mem c
            (colon_mem_digitsThenColon (d :: rest2) h.2)

/-- Every character of a matched opcode belongs to the group class
`[A-Z_0-9]` (in particular, no colon occurs in it). -/
theorem matchOpcodeL_chars (cs out : List Char)
    (h : matchOpcodeL cs = some out) : ∀ x ∈ out, isOpChar x = true := by
  match cs with
  | [] => simp [matchOpcodeL] at h
  | c :: rest =>
      by_cases hc : isUpperAZ c = true
      · simp only [matchOpcodeL, hc, if_true] at h
        cases htf : tryFrom (c :: rest) (1 + (rest.takeWhile isOpChar).length) with
        | none => rw [htf] at h; simp at h
        | some k =>
            rw [htf] at h
            have hk := tryFrom_le (c :: rest) _ k htf
            have hsplit : rest.takeWhile isOpChar ++ rest.dropWhile isOpChar
                = rest := List.takeWhile_append_dropWhile isOpChar rest
            have hout : out = (c :: rest).take k := by
              cases h; rfl
            have htk : (c :: rest).take k
                = (c :: rest.takeWhile isOpChar).take k := by
              conv in c :: rest => rw [← hsplit]
              rw [← List.cons_append]
              exact List.take_append_of_le_length (by simp; omega)
            intro x hx
            rw [hout, htk] at hx
            have hx2 : x ∈ c :: rest.takeWhile isOpChar :=
              List.take_subset k _ hx
            rcases List.mem_cons.mp hx2 with rfl | hx2
            · simp only [isOpChar, hc, Bool.true_or]
            · exact takeWhile_isOpChar rest x hx2
      · simp only [matchOpcodeL, hc] at h
        simp at h

/-- Count of one file's entries in the invocation log of the whole run. -/
theorem count_flatMap_invOf (compiler : String → Option String) (f : String) :
    ∀ files : List String, files.Nodup → f ∈ files →
      (files.flatMap (invOf compiler)).count f
        = if (compiler f).isSome then 2 else 1 := by
  intro files
  induction files with
  | nil => intro _ h; simp at h
  | cons g gs ih =>
      intro hnd hf
      have hndg : g ∉ gs := (List.nodup_cons.mp hnd).1
      have hndgs : gs.Nodup := (List.nodup_cons.mp hnd).2
      rw [List.flatMap_cons, List.count_append]
      by_cases hgf : g = f
      · subst hgf
        have hnot : g ∉ gs.flatMap (invOf compiler) := by
          intro hmem
          rcases List.mem_flatMap.mp hmem with ⟨x, hx, hfx⟩
          have : g = x := by
            cases hcx : compiler x <;> simp [invOf, hcx] at hfx <;> exact hfx
          exact hndg (this ▸ hx)
        rw [List.count_eq_zero.mpr hnot]
        cases hc : compiler g <;> simp [invOf, hc]
      · have hf2 : f ∈ gs := by
          rcases List.mem_cons.mp hf with h | h
          · exact absurd h.symm hgf
          · exact h
        have hzero : (invOf compiler g).count f = 0 := by
          apply List.count_eq_zero.mpr
          intro hmem
          have : f = g := by
            cases hcg : compiler g <;> simp [invOf, hcg] at hmem <;> exact hmem
          exact hgf this.symm
        rw [hzero, ih hndgs hf2]
        omega

end Lemmas

section Claims

/-- Claim C1: for every run over every file set (the file list `find_files`
supplies is duplicate-free), the structured output satisfies
`total_opcodes = sum(aggregate.values())`, and for every opcode `op`,
`aggregate[op]` equals the key-wise sum over all succeeded files of that
file's per-file count for `op`, treating a key absent in a per-file map
as 0. -/
theorem c1_structured_output_sums (compiler : String → Option String)
    (files : List String) (hnd : files.Nodup) :
    (jsonOf (runAll compiler files)).total_opcodes
        = ((jsonOf (runAll compiler files)).aggregate.map (fun e => e.2)).sum
    ∧ ∀ op : String,
        lookup0 (jsonOf (runAll compiler files)).aggregate op
          = ((jsonOf (runAll compiler files)).per_file.map
              (fun e => lookup0 e.2 op)).sum := by
  constructor
  · rfl
  · intro op
    have hPF : (runAll compiler files).perFile
        = (files.filter (fun f => (compiler f).isSome)).map
            (fun f => (f, extractOf compiler f)) := by
      have h := foldl_step_perFile compiler files initState
        (by intro f _ e he; simp [initState] at he) hnd
      simpa [runAll, initState] using h
    have hAgg : (runAll compiler files).aggregate
        = ((files.filter (fun f => (compiler f).isSome)).map
            (extractOf compiler)).flatten := by
      have h := foldl_step_aggregate compiler files initState
      simpa [runAll, initState] using h
    have hLHS : lookup0 (jsonOf (runAll compiler files)).aggregate op
        = (runAll compiler files).aggregate.count op :=
      lookup0_counterItems (runAll compiler files).aggregate op
    rw [hLHS, hAgg, List.count_flatten, List.map_map]
    have hRHS : (jsonOf (runAll compiler files)).per_file
        = (runAll compiler files).perFile.map
            (fun e => (e.1, counterItems e.2)) := rfl
    rw [hRHS, hPF, List.map_map, List.map_map]
    simp only [Function.comp_def, lookup0_counterItems]

/-- Witness for C1 at a concrete two-file run with one failing file,
instantiated at the opcode MOVE. -/
theorem c1_witness :
    (jsonOf (runAll mixedCompiler ["a.luau", "bad.luau"])).total_opcodes
        = ((jsonOf (runAll mixedCompiler ["a.luau", "bad.luau"])).aggregate.map
            (fun e => e.2)).sum
    ∧ lookup0 (jsonOf (runAll mixedCompiler ["a.luau", "bad.luau"])).aggregate
          "MOVE"
        = ((jsonOf (runAll mixedCompiler ["a.luau", "bad.luau"])).per_file.map
            (fun e => lookup0 e.2 "MOVE")).sum := by
  have h := c1_structured_output_sums mixedCompiler ["a.luau", "bad.luau"]
    (by decide)
  exact ⟨h.1, h.2 "MOVE"⟩

/-- Claim C2 counterexample: the line `ABCdef` begins with the maximal
prefix `ABC` matching `[A-Z][A-Z0-9_]*` (label stripping leaves the line
unchanged), yet the extractor counts nothing, because the `\b` in the
source regex rejects the lowercase word character that follows. -/
theorem c2_counterexample :
    stripLabel ("ABCdef".toList) = "ABCdef".toList
    ∧ ("ABCdef".toList).takeWhile isOpChar = "ABC".toList
    ∧ isUpperAZ 'A' = true
    ∧ extractLine ("ABCdef".toList) = none := by
  refine ⟨by decide, by decide, by decide, by decide⟩

/-- Claim C2 as amended: for every line that, after label stripping,
begins with an uppercase letter, the extractor counts the maximal prefix
matching `[A-Z][A-Z0-9_]*` exactly when that prefix is followed by the end
of the line or by a non-word character; when a word character (such as a
lowercase letter) follows the maximal prefix, the line contributes no
opcode, and a line not starting with an uppercase letter after stripping
contributes no opcode. -/
theorem c2_amended_boundary :
    (∀ (line : List Char) (c : Char) (rest : List Char),
        stripLabel line = c :: rest → isUpperAZ c = true →
        rest.dropWhile isOpChar = [] →
        extractLine line = some (c :: rest.takeWhile isOpChar))
    ∧ (∀ (line : List Char) (c : Char) (rest : List Char) (d : Char)
          (tl : List Char),
        stripLabel line = c :: rest → isUpperAZ c = true →
        rest.dropWhile isOpChar = d :: tl → isWordChar d = false →
        extractLine line = some (c :: rest.takeWhile isOpChar))
    ∧ (∀ (line : List Char) (c : Char) (rest : List Char) (d : Char)
          (tl : List Char),
        stripLabel line = c :: rest → isUpperAZ c = true →
        rest.dropWhile isOpChar = d :: tl → isWordChar d = true →
        extractLine line = none)
    ∧ (∀ (line : List Char) (c : Char) (rest : List Char),
        stripLabel line = c :: rest → isUpperAZ c = false →
        extractLine line = none) := by
  refine ⟨?_, ?_, ?_, ?_⟩
  · intro line c rest hs hc hd
    have hb : boundaryAfter (c :: rest)
        ((rest.takeWhile isOpChar).length + 1) = true := by
      rw [boundaryAfter_at_group_end, hd]
    simp only [extractLine, hs, List.isEmpty_cons, Bool.false_eq_true,
      if_false]
    exact matchOpcodeL_boundary_true c rest hc hb
  · intro line c rest d tl hs hc hd hw
    have hb : boundaryAfter (c :: rest)
        ((rest.takeWhile isOpChar).length + 1) = true := by
      rw [boundaryAfter_at_group_end, hd]
      simp [hw]
    simp only [extractLine, hs, List.isEmpty_cons, Bool.false_eq_true,
      if_false]
    exact matchOpcodeL_boundary_true c rest hc hb
  · intro line c rest d tl hs hc hd hw
    have hb : boundaryAfter (c :: rest)
        ((rest.takeWhile isOpChar).length + 1) = false := by
      rw [boundaryAfter_at_group_end, hd]
      simp [hw]
    simp only [extractLine, hs, List.isEmpty_cons, Bool.false_eq_true,
      if_false]
    exact matchOpcodeL_boundary_false c rest hc hb
  · intro line c rest hs hc
    simp only [extractLine, hs, List.isEmpty_cons, Bool.false_eq_true,
      if_false]
    simp [matchOpcodeL, hc]

/-- Witness for the amended C2 at the line `MOVE R0 R1`: the maximal
prefix MOVE is followed by a space, so it is counted. -/
theorem c2_witness :
    extractLine ("MOVE R0 R1".toList) = some ("MOVE".toList) := by
  have h := c2_amended_boundary.2.1 ("MOVE R0 R1".toList) 'M'
    ("OVE R0 R1".toList) ' ' ("R0 R1".toList) (by decide) (by decide)
    (by decide) (by decide)
  have h2 : ('M' :: ("OVE R0 R1".toList).takeWhile isOpChar)
      = "MOVE".toList := by decide
  rw [h2] at h
  exact h

/-- Claim C3 counterexample: on the three-line scenario text, the indented
line `    ADD R1 R0 R0` contributes no opcode (matching is anchored at the
line start and plain leading whitespace is never stripped), so the
extraction yields LOADK and RETURN only and the count of ADD is 0, not
1. -/
theorem c3_counterexample :
    extractOpcodes scenarioText = ["LOADK", "RETURN"]
    ∧ lookup0 (counterItems (extractOpcodes scenarioText)) "ADD" = 0 := by
  refine ⟨by decide, by decide⟩

/-- Claim C3 as amended: the scenario text yields the per-file count
`LOADK:1, RETURN:1` (the indented ADD line contributes nothing), and
ranking these equal counts orders them alphabetically as LOADK,
RETURN. -/
theorem c3_amended_scenario :
    counterItems (extractOpcodes scenarioText) = [("LOADK", 1), ("RETURN", 1)]
    ∧ rankSort (counterItems (extractOpcodes scenarioText))
        = [("LOADK", 1), ("RETURN", 1)] := by
  refine ⟨by decide, by decide⟩

/-- Claim C4 counterexample: in the single-file tool opcode-freq.py, a
file whose invocation succeeds with empty output yields zero opcodes and
the run exits 1 (`if not opcode_counts: sys.exit(1)`, lines 73-75), so
success of the Disassembly Source does not prevent a non-zero exit
there. -/
theorem c4_counterexample :
    emptyOkCompiler "empty.luau" = some ""
    ∧ extractOpcodes "" = []
    ∧ singleExitCode emptyOkCompiler "empty.luau" = 1 := by
  refine ⟨rfl, by decide, by decide⟩

/-- Claim C4 as amended: in the multi-file tool opcode-freq-all.py, a file
whose invocation succeeds but whose extraction yields zero opcodes counts
as succeeded (the success signal, not the opcode count, gates the
counters), contributes a zero-valued per-file count, and does not cause a
non-zero exit in any output mode; the single-file tool opcode-freq.py, by
contrast, exits non-zero when extraction yields zero opcodes even though
compilation succeeded. -/
theorem c4_amended_empty_extraction (mode : OutMode)
    (compiler : String → Option String) (files : List String) (f : String)
    (text : String) (hnd : files.Nodup) (hf : f ∈ files)
    (hc : compiler f = some text) (hext : extractOpcodes text = []) :
    (runAll compiler files).fileCount
        = files.countP (fun g => (compiler g).isSome)
    ∧ 0 < (runAll compiler files).fileCount
    ∧ (f, ([] : List String)) ∈ (runAll compiler files).perFile
    ∧ (mainRun mode compiler files).exitCode = 0 := by
  have hFC : (runAll compiler files).fileCount
      = files.countP (fun g => (compiler g).isSome) := by
    have h := foldl_step_fileCount compiler files initState
    simpa [runAll, initState] using h
  have hpos : 0 < files.countP (fun g => (compiler g).isSome) :=
    List.countP_pos_iff.mpr ⟨f, hf, by simp [hc]⟩
  refine ⟨hFC, by rw [hFC]; exact hpos, ?_, ?_⟩
  · have hPF : (runAll compiler files).perFile
        = (files.filter (fun g => (compiler g).isSome)).map
            (fun g => (g, extractOf compiler g)) := by
      have h := foldl_step_perFile compiler files initState
        (by intro g _ e he; simp [initState] at he) hnd
      simpa [runAll, initState] using h
    rw [hPF]
    have hfmem : f ∈ files.filter (fun g => (compiler g).isSome) :=
      List.mem_filter.mpr ⟨hf, by simp [hc]⟩
    have hval : extractOf compiler f = [] := by simp [extractOf, hc, hext]
    exact List.mem_map.mpr ⟨f, hfmem, by rw [hval]⟩
  · have hne : files.isEmpty = false := by
      have := List.ne_nil_of_mem hf
      simpa [List.isEmpty_iff] using this
    have hnz : ¬(runAll compiler files).fileCount = 0 := by
      rw [hFC]; omega
    simp [mainRun, hne, hnz]

/-- Witness for the amended C4 at a run over one file that compiles to
empty output. -/
theorem c4_witness :
    (runAll emptyOkCompiler ["empty.luau"]).fileCount
        = (["empty.luau"] : List String).countP
            (fun g => (emptyOkCompiler g).isSome)
    ∧ 0 < (runAll emptyOkCompiler ["empty.luau"]).fileCount
    ∧ ("empty.luau", ([] : List String))
        ∈ (runAll emptyOkCompiler ["empty.luau"]).perFile
    ∧ (mainRun OutMode.table emptyOkCompiler ["empty.luau"]).exitCode = 0 :=
  c4_amended_empty_extraction OutMode.table emptyOkCompiler ["empty.luau"]
    "empty.luau" "" (by decide) (by decide) rfl (by decide)

/-- Claim C5 counterexample: a run over a single succeeding file performs
two compiler invocations for that file, not one, in the default table
mode as well as in the JSON mode (the success branch of the loop invokes
the compiler a second time for the assembly text). -/
theorem c5_counterexample :
    (mainRun OutMode.table okCompiler ["a.luau"]).invocations.count "a.luau"
        = 2
    ∧ (mainRun OutMode.json okCompiler ["a.luau"]).invocations.count "a.luau"
        = 2
    ∧ (mainRun OutMode.table okCompiler ["a.luau"]).invocations.count
        "a.luau" ≠ 1 := by
  refine ⟨by decide, by decide, by decide⟩

/-- Claim C5 as amended: in every output mode, each input file of a run
causes exactly one compiler invocation when its invocation fails, and
exactly two when it succeeds (the second fetches the disassembly text for
the assembly listing). -/
theorem c5_amended_invocation_count (mode : OutMode)
    (compiler : String → Option String) (files : List String) (f : String)
    (hnd : files.Nodup) (hf : f ∈ files) :
    (mainRun mode compiler files).invocations.count f
      = if (compiler f).isSome then 2 else 1 := by
  have hne : files.isEmpty = false := by
    have := List.ne_nil_of_mem hf
    simpa [List.isEmpty_iff] using this
  have hinv : (mainRun mode compiler files).invocations
      = (runAll compiler files).invocations := by
    by_cases h0 : (runAll compiler files).fileCount = 0 <;>
      simp [mainRun, hne, h0]
  rw [hinv]
  have h2 : (runAll compiler files).invocations
      = files.flatMap (invOf compiler) := by
    have h := foldl_step_invocations compiler files initState
    simpa [runAll, initState] using h
  rw [h2]
  exact count_flatMap_invOf compiler f files hnd hf

/-- Witness for the amended C5 at a failing file: exactly one
invocation. -/
theorem c5_witness :
    (mainRun OutMode.showAsm failCompiler ["b.luau"]).invocations.count
        "b.luau"
      = if (failCompiler "b.luau").isSome then 2 else 1 :=
  c5_amended_invocation_count OutMode.showAsm failCompiler ["b.luau"]
    "b.luau" (by decide) (by decide)

/-- Claim C6: the table ranks opcodes by descending count with ties broken
by ascending lexicographic opcode name, the ranked sequence is a
permutation of the counter items, and the ordering is deterministic: any
sequence that permutes the same items and is sorted in this order is the
rendered sequence. -/
theorem c6_ranking_sorted_deterministic (items : List (String × Nat)) :
    (rankSort items).Pairwise (fun a b => rankLE a b = true)
    ∧ (rankSort items).Perm items
    ∧ ∀ l : List (String × Nat), l.Perm items →
        l.Pairwise (fun a b => rankLE a b = true) → l = rankSort items := by
  refine ⟨sorted_rankSort items, rankSort_perm items, ?_⟩
  intro l hperm hsort
  haveI : IsAntisymm (String × Nat) (fun a b => rankLE a b = true) :=
    ⟨fun a b h1 h2 => rankLE_antisymm h1 h2⟩
  exact List.eq_of_perm_of_sorted (hperm.trans (rankSort_perm items).symm)
    hsort (sorted_rankSort items)

/-- Witness for C6: the sorted arrangement of a concrete two-item counter
is forced to be the rendered one. -/
theorem c6_witness :
    ([("B", 2), ("A", 1)] : List (String × Nat))
      = rankSort [("A", 1), ("B", 2)] :=
  (c6_ranking_sorted_deterministic [("A", 1), ("B", 2)]).2.2
    [("B", 2), ("A", 1)] (by decide) (by decide)

/-- Claim C7: for every run with a non-empty file list, in every output
mode: if every file's invocation fails, the run exits 1 and renders no
report and no warning (the fatal exit precedes the warning); if at least
one file succeeds, the run exits 0, renders the report for the selected
mode, and emits the stderr warning carrying the failed-file count exactly
when some file failed. -/
theorem c7_exit_and_warning (mode : OutMode)
    (compiler : String → Option String) (files : List String)
    (hne : files ≠ []) :
    ((∀ f ∈ files, compiler f = none) →
        mainRun mode compiler files
          = { exitCode := 1, report := none, warning := none,
              invocations := (runAll compiler files).invocations })
    ∧ (∀ f ∈ files, (compiler f).isSome = true →
        (mainRun mode compiler files).exitCode = 0
        ∧ (mainRun mode compiler files).report
            = some (renderReport mode (runAll compiler files))
        ∧ (mainRun mode compiler files).warning
            = (if 0 < files.countP (fun g => (compiler g).isNone)
               then some (files.countP (fun g => (compiler g).isNone))
               else none)) := by
  have hE : files.isEmpty = false := by simpa [List.isEmpty_iff] using hne
  have hFC : (runAll compiler files).fileCount
      = files.countP (fun g => (compiler g).isSome) := by
    have h := foldl_step_fileCount compiler files initState
    simpa [runAll, initState] using h
  have hFail : (runAll compiler files).failed
      = files.countP (fun g => (compiler g).isNone) := by
    have h := foldl_step_failed compiler files initState
    simpa [runAll, initState] using h
  constructor
  · intro hall
    have h0 : files.countP (fun g => (compiler g).isSome) = 0 := by
      rw [List.countP_eq_zero]
      intro a ha
      simp [hall a ha]
    have hz : (runAll compiler files).fileCount = 0 := by rw [hFC, h0]
    simp [mainRun, hE, hz]
  · intro f hf hsome
    have hpos : 0 < files.countP (fun g => (compiler g).isSome) :=
      List.countP_pos_iff.mpr ⟨f, hf, hsome⟩
    have hnz : ¬(runAll compiler files).fileCount = 0 := by rw [hFC]; omega
    refine ⟨?_, ?_, ?_⟩ <;> simp [mainRun, hE, hnz, hFail]

/-- Witness for C7 at a concrete run with one succeeding and one failing
file: exit 0, report rendered, warning carrying the count 1. -/
theorem c7_witness :
    (mainRun OutMode.table mixedCompiler ["a.luau", "bad.luau"]).exitCode = 0
    ∧ (mainRun OutMode.table mixedCompiler ["a.luau", "bad.luau"]).report
        = some (renderReport OutMode.table
            (runAll mixedCompiler ["a.luau", "bad.luau"]))
    ∧ (mainRun OutMode.table mixedCompiler ["a.luau", "bad.luau"]).warning
        = (if 0 < (["a.luau", "bad.luau"] : List String).countP
              (fun g => (mixedCompiler g).isNone)
           then some ((["a.luau", "bad.luau"] : List String).countP
              (fun g => (mixedCompiler g).isNone))
           else none) :=
  (c7_exit_and_warning OutMode.table mixedCompiler ["a.luau", "bad.luau"]
    (by decide)).2 "a.luau" (by decide) (by decide)

/-- Claim C8: when the total opcode occurrence count is 0, every rendered
percentage is exactly 0 (the guard `if total > 0` avoids any division), so
table rendering never raises a division error. -/
theorem c8_zero_total_percentages (items : List (String × Nat))
    (row : String × Nat × ℚ) (hrow : row ∈ tableRows items 0) :
    row.2.2 = 0 := by
  rcases List.mem_map.mp hrow with ⟨e, _, rfl⟩
  simp [pctOf]

/-- Witness for C8 at a concrete one-row table with total 0. -/
theorem c8_witness : (("MOVE", 3, (0 : ℚ)) : String × Nat × ℚ).2.2 = 0 :=
  c8_zero_total_percentages [("MOVE", 3)] ("MOVE", 3, 0) (by decide)

/-- Claim C9: no extracted opcode ever has the label-prefix shape (L,
digits, colon) — every character of a counted opcode lies in
`[A-Z_0-9]`, which excludes the colon — and in particular the line
`L42:   LOADK R0 K3` extracts the opcode LOADK, not L42 and not
nothing. -/
theorem c9_label_never_opcode :
    (∀ line out : List Char, extractLine line = some out →
        isLabelToken out = false)
    ∧ extractLines ["L42:   LOADK R0 K3"] = ["LOADK"] := by
  constructor
  · intro line out h
    have hm : matchOpcodeL (stripLabel line) = some out := by
      simp only [extractLine] at h
      by_cases he : (stripLabel line).isEmpty = true
      · simp [he] at h
      · simpa [he] using h
    have hchars := matchOpcodeL_chars (stripLabel line) out hm
    cases hb : isLabelToken out with
    | false => rfl
    | true =>
        have hcolon := colon_mem_isLabelToken out hb
        exact absurd (hchars ':' hcolon) (by decide)
  · decide

/-- Witness for C9 at the opcode extracted from the concrete labelled
line. -/
theorem c9_witness : isLabelToken ("LOADK".toList) = false :=
  c9_label_never_opcode.1 ("L42:   LOADK R0 K3".toList) ("LOADK".toList)
    (by decide)

/-- Claim C10: the multi-file tool examines only the first command-line
argument for an option flag, so at most one of show-asm and json takes
effect in a run; when both are given, the second flag lands among the
file patterns; any other first argument leaves the argument list
untouched. -/
theorem c10_single_flag :
    (∀ args : List String,
        ((parseArgs args).1 && (parseArgs args).2.1) = false)
    ∧ parseArgs ["--show-asm", "--json", "f.luau"]
        = (true, false, ["--json", "f.luau"])
    ∧ ∀ (a : String) (rest : List String), a ≠ "--show-asm" →
        a ≠ "--json" → parseArgs (a :: rest) = (false, false, a :: rest) := by
  refine ⟨?_, by decide, ?_⟩
  · intro args
    cases args with
    | nil => rfl
    | cons a rest =>
        by_cases h1 : a = "--show-asm"
        · simp [parseArgs, h1]
        · by_cases h2 : a = "--json"
          · simp [parseArgs, h1, h2]
          · simp [parseArgs, h1, h2]
  · intro a rest h1 h2
    simp [parseArgs, h1, h2]

/-- Witness for C10 at a flagless argument list. -/
theorem c10_witness :
    parseArgs ["x.luau"] = (false, false, ["x.luau"]) :=
  c10_single_flag.2.2 "x.luau" [] (by decide) (by decide)

end Claims

end OpcodeFreq
